import Mathlib

/-
Verification of the timer3 library (src/timer3/_timer3.py).

The development shallowly embeds the `Timer3` class and its operations:

* `Timer3` is the record of the four mutable attributes set in `__init__`.
* `Timer3.time` embeds the `@contextmanager time` method.  The body of the
  `with` block is a function from the recorder state to a new state together
  with an optional exception; the wall clock is an external collaborator, so
  the measured duration is a parameter.  Durations are modelled as integers:
  no claim depends on arithmetic of the measured float values.
* `runProg` / `runForest` execute a well-nested, normally-completing session
  of scopes (a forest of calls) through `Timer3.time`.
* `sortLoop` / `sortByCallOrder` embed `sort_by_call_order`.  The python
  method keeps the two parallel buffers `subcall_states` / `subcall_ids`;
  the embedding keeps them zipped in one list of pairs, and the recursive
  call re-splits them with `map Prod.fst` / `map Prod.snd` exactly where the
  python code passes the two lists.  At `current_state = 0` python returns
  only `sorted_ids`; the embedding uniformly returns the pair, and the
  method wrapper `Timer3.sort_by_call_order` projects to `.2`.
* `Timer3.strRender` embeds `__str__` and `Timer3.export_csv` embeds
  `export_csv`; both start with a python `max(...)` over a possibly empty
  list, which raises `ValueError` on an empty list; this failure is
  modelled by `Option` (`none` = the raised error).  Text padding and the
  `%.8E` float rendering are cosmetic (spec section 1 places them outside
  the contract); `formatSci` is a simple stand-in for the float formatter.
-/

/-- Recorder state: the attributes assigned in `Timer3.__init__`
(`times`, `names`, `states`, `current_state`). -/
structure Timer3 where
  times : List Int
  names : List String
  states : List Int
  current_state : Int

/-- The state built by `Timer3.__init__`: three empty logs, depth counter -1. -/
def Timer3.init : Timer3 :=
  { times := [], names := [], states := [], current_state := -1 }

/-- Embedding of the `@contextmanager time` method.  On entry the depth
counter is incremented; then the body of the `with` block runs.  If the body
returns normally, the code after `yield` runs: one element is appended to
`states` (the depth read before the decrement), `times` and `names`, and the
counter is decremented.  If the body raises, `contextlib` re-raises at the
`yield`; there is no `try/finally` in the source, so the code after `yield`
does not run: the state is whatever the body left behind and the same
exception propagates. -/
def Timer3.time {e : Type} (t : Timer3) (name : String) (dur : Int)
    (body : Timer3 → Timer3 × Option e) : Timer3 × Option e :=
  match body { t with current_state := t.current_state + 1 } with
  | (t1, none) =>
    ({ t1 with
        states := t1.states ++ [t1.current_state],
        times := t1.times ++ [dur],
        names := t1.names ++ [name],
        current_state := t1.current_state - 1 }, none)
  | (t1, some err) => (t1, some err)

/-- Embedding of a call through a `timethis`-wrapped function: the produced
wrapper runs the call inside `with self.time(name, log_function)`.  The
`name` argument carries the explicit name or the wrapped function's
`__qualname__` default. -/
def Timer3.timethis {e : Type} (t : Timer3) (name : String) (dur : Int)
    (fn : Timer3 → Timer3 × Option e) : Timer3 × Option e :=
  Timer3.time t name dur fn

/-- A well-nested, normally completing timing session: a scope with a name,
a measured duration (supplied by the external clock) and the sub-scopes
executed inside it. -/
inductive Prog where
  | scope (name : String) (dur : Int) (subs : List Prog) : Prog

mutual
/-- Run one scope on the recorder: increment the counter, run the nested
scopes, then append the three log entries and decrement; this is exactly the
success branch of `Timer3.time` (see `runProg_eq_time`). -/
def runProg (t : Timer3) : Prog → Timer3
  | .scope name dur subs =>
    let t1 := runForest { t with current_state := t.current_state + 1 } subs
    { t1 with
      states := t1.states ++ [t1.current_state],
      times := t1.times ++ [dur],
      names := t1.names ++ [name],
      current_state := t1.current_state - 1 }

/-- Run a sequence of sibling scopes left to right. -/
def runForest (t : Timer3) : List Prog → Timer3
  | [] => t
  | p :: ps => runForest (runProg t p) ps
end

/-- One entry of the heterogeneous python list `nested_states`: either the
singleton `[current_state]` content (an int) or a nested list. -/
inductive Nested where
  | nint (s : Int) : Nested
  | nlist (l : List Nested) : Nested

/-- The list `current_state_indices = [ids[i] for i, j in enumerate(states)
if j == current_state]`, over the zipped `(id, state)` pairs (`ids` and
`states` always have equal length at every call site). -/
def currentStateIndices (pairs : List (Nat × Int)) (current_state : Int) : List Nat :=
  pairs.filterMap fun p => if p.2 = current_state then some p.1 else none

/-- The `for id_state, state in zip(ids, states)` loop of
`sort_by_call_order`.  Loop state: the remaining pairs, `current_state`,
`current_state_indices`, and the accumulators `nested_states`, the zipped
`subcall_states`/`subcall_ids` buffer, and `sorted_ids`.  A marker
(`id_state in current_state_indices`) is appended to `sorted_ids` and
`nested_states`; if the subcall buffer is non-empty it is ordered by the
recursive call at `current_state + 1` (the nested invocation of
`sort_by_call_order`, compare `sortByCallOrder_eq_sortLoop`), its results are
spliced in after the marker and the buffer is reset.  A non-marker is
appended to the subcall buffer.  At the end of the sequence the function
returns `(nested_states, sorted_ids)`; a still pending subcall buffer is
dropped. -/
def sortLoop : List (Nat × Int) → Int → List Nat → List Nested → List (Nat × Int) →
    List Nat → List Nested × List Nat
  | [], _, _, nested_states, _, sorted_ids => (nested_states, sorted_ids)
  | (id_state, state) :: rest, current_state, cs_indices, nested_states, subcall, sorted_ids =>
    if id_state ∈ cs_indices then
      if 0 < (subcall.map Prod.fst).length then
        let subPairs := List.zip (subcall.map Prod.fst) (subcall.map Prod.snd)
        let r := sortLoop subPairs (current_state + 1)
          (currentStateIndices subPairs (current_state + 1)) [] [] []
        sortLoop rest current_state cs_indices
          ((nested_states ++ [Nested.nlist [Nested.nint current_state]]) ++ [Nested.nlist r.1])
          [] ((sorted_ids ++ [id_state]) ++ r.2)
      else
        sortLoop rest current_state cs_indices
          (nested_states ++ [Nested.nlist [Nested.nint current_state]]) subcall
          (sorted_ids ++ [id_state])
    else
      sortLoop rest current_state cs_indices nested_states
        (subcall ++ [(id_state, state)]) sorted_ids
termination_by l _ _ _ subcall _ => (l.length + subcall.length, l.length)
decreasing_by
  all_goals simp_wf
  all_goals (try simp [Prod.lex_def, List.length_zip, List.length_map])
  all_goals omega

/-- Embedding of `sort_by_call_order(states, ids, current_state)`: compute
`current_state_indices` and run the loop with empty accumulators. -/
def sortByCallOrder (states : List Int) (ids : List Nat) (current_state : Int) :
    List Nested × List Nat :=
  sortLoop (List.zip ids states) current_state
    (currentStateIndices (List.zip ids states) current_state) [] [] []

/-- The defaulted call `self.sort_by_call_order()`: `states = self.states`,
`ids = range(len(states))`, `current_state = 0`; at the outermost level the
python code returns only `sorted_ids`. -/
def Timer3.sort_by_call_order (t : Timer3) : List Nat :=
  (sortByCallOrder t.states (List.range t.states.length) 0).2

/-- The recursive call inside the loop is exactly the embedded
`sort_by_call_order(subcall_states, subcall_ids, current_state + 1)`. -/
theorem sortByCallOrder_eq_sortLoop (l : List (Nat × Int)) (c : Int) :
    sortByCallOrder (l.map Prod.snd) (l.map Prod.fst) c =
      sortLoop (List.zip (l.map Prod.fst) (l.map Prod.snd)) c
        (currentStateIndices (List.zip (l.map Prod.fst) (l.map Prod.snd)) c) [] [] [] := rfl

/-- Success branch of `Timer3.time` and `runProg` agree: `runProg` is the
scope execution with a normally-returning body. -/
theorem runProg_eq_time (t : Timer3) (name : String) (dur : Int) (subs : List Prog) :
    runProg t (.scope name dur subs) =
      (Timer3.time t name dur fun s => (runForest s subs, (none : Option Unit))).1 := by
  rw [runProg]
  rfl

/-- Python `max` over a list: `ValueError` (here `none`) on the empty list,
otherwise the maximum. -/
def listMax : List Int → Option Int
  | [] => none
  | x :: xs => some (xs.foldl max x)

/-- One CSV cell: blank, a string, or a numeric duration value. -/
inductive Cell where
  | blank : Cell
  | str (s : String) : Cell
  | num (x : Int) : Cell
deriving DecidableEq

/-- The header row of `export_csv`: `row = [""] * max_state + ["time (s)"]`
followed by `row[0] = "function names"`. -/
def csvHeader (max_state : Nat) : List Cell :=
  ((List.replicate max_state Cell.blank) ++ [Cell.str "time (s)"]).set 0
    (Cell.str "function names")

/-- A data row of `export_csv` for record index `i`:
`row = [""] * max_state + [t]` followed by `row[s] = n`, with
`n, t, s = names[i], times[i], states[i]`.  Indexing is total via `getD`;
every `i` produced by `sort_by_call_order` is a valid index and every
recorded state `s` satisfies `0 ≤ s < max_state`, so the defaults and the
`toNat` coercion are inert on recorder-produced logs. -/
def csvRow (t : Timer3) (max_state : Nat) (i : Nat) : List Cell :=
  ((List.replicate max_state Cell.blank) ++ [Cell.num (t.times.getD i 0)]).set
    (t.states.getD i 0).toNat (Cell.str (t.names.getD i ""))

/-- Embedding of `export_csv`: `max_state = max(self.states) + 1` (the python
`max` raises on an empty log, modelled by `none`), then the header row and
one row per record in reconstructed order.  The rows are returned instead of
written to the file; the file path and the I/O are external. -/
def Timer3.export_csv (t : Timer3) : Option (List (List Cell)) :=
  match listMax t.states with
  | none => none
  | some m =>
    some (csvHeader (m + 1).toNat :: t.sort_by_call_order.map (csvRow t (m + 1).toNat))

/-- Python `"{:<w}".format(s)`: pad on the right with spaces to width `w`. -/
def padRightTo (s : String) (w : Nat) : String :=
  s ++ String.mk (List.replicate (w - s.length) ' ')

/-- Python `s.center(w)` (cosmetic; spec section 1 puts the exact text layout
outside the contract). -/
def centerTo (s : String) (w : Nat) : String :=
  let pad := w - s.length
  String.mk (List.replicate (pad / 2) ' ') ++ s ++ String.mk (List.replicate (pad - pad / 2) ' ')

/-- Stand-in for the `{:.8E}` float rendering of a duration (cosmetic; spec
section 1 puts float formatting outside the contract). -/
def formatSci (x : Int) : String := toString x

/-- Embedding of `__str__`.  `max_len = min(40, max([len(n) + s for n, s in
zip(self.names, self.states)]))`; the python `max` raises `ValueError` on an
empty log (modelled by `none`).  Otherwise the bordered table is assembled
row by row in reconstructed order. -/
def Timer3.strRender (t : Timer3) : Option String :=
  match listMax ((List.zip t.names t.states).map fun p => (p.1.length : Int) + p.2) with
  | none => none
  | some mx =>
    let max_len : Int := min 40 mx
    let separator := "+" ++ String.mk (List.replicate (max_len + 21).toNat '-') ++ "+"
    let body := String.join (t.sort_by_call_order.map fun i =>
      "| " ++ padRightTo (String.join (List.replicate (t.states.getD i 0).toNat "  ")
          ++ t.names.getD i "") (max_len + 4).toNat
        ++ " " ++ formatSci (t.times.getD i 0) ++ " |\n")
    some (separator ++ "\n"
      ++ "| " ++ centerTo "Timer3" (separator.length - 4) ++ " |\n"
      ++ separator ++ "\n" ++ body ++ separator ++ "\n")

/-- Call tree with integer node labels: the labels stand for record indices. -/
inductive TreeI where
  | node (i : Nat) (children : List TreeI) : TreeI

mutual
/-- Completion-order (postorder) listing of `(id, depth)` pairs of a tree
whose root sits at depth `L`: records are logged on scope exit, so all
descendants are listed before the root. -/
def postT (L : Int) : TreeI → List (Nat × Int)
  | .node i cs => postF (L + 1) cs ++ [(i, L)]

/-- Completion-order listing of a forest of sibling trees at depth `L`. -/
def postF (L : Int) : List TreeI → List (Nat × Int)
  | [] => []
  | t :: ts => postT L t ++ postF L ts
end

mutual
/-- Depth-first preorder listing of the node ids of a tree: root first, then
the descendants, siblings kept in order. -/
def preT : TreeI → List Nat
  | .node i cs => i :: preF cs

/-- Depth-first preorder listing of a forest. -/
def preF : List TreeI → List Nat
  | [] => []
  | t :: ts => preT t ++ preF ts
end

mutual
/-- Number of scopes in one scope tree. -/
def countT : Prog → Nat
  | .scope _ _ subs => countF subs + 1

/-- Number of scopes in a forest. -/
def countF : List Prog → Nat
  | [] => 0
  | p :: ps => countT p + countF ps
end

mutual
/-- Depth log of one scope at depth `L`, in completion order. -/
def depthsT (L : Int) : Prog → List Int
  | .scope _ _ subs => depthsF (L + 1) subs ++ [L]

/-- Depth log of a forest of sibling scopes at depth `L`. -/
def depthsF (L : Int) : List Prog → List Int
  | [] => []
  | p :: ps => depthsT L p ++ depthsF L ps
end

mutual
/-- Duration log of one scope, in completion order. -/
def dursT : Prog → List Int
  | .scope _ dur subs => dursF subs ++ [dur]

/-- Duration log of a forest of sibling scopes. -/
def dursF : List Prog → List Int
  | [] => []
  | p :: ps => dursT p ++ dursF ps
end

mutual
/-- Name log of one scope, in completion order. -/
def namesT : Prog → List String
  | .scope name _ subs => namesF subs ++ [name]

/-- Name log of a forest of sibling scopes. -/
def namesF : List Prog → List String
  | [] => []
  | p :: ps => namesT p ++ namesF ps
end

mutual
/-- Label the nodes of one scope tree with its records' indices: record
indices are completion (postorder) positions, children first starting at
`k`, the root itself last.  Returns the labelled tree and the next unused
index. -/
def labelT (p : Prog) (k : Nat) : TreeI × Nat :=
  match p with
  | .scope _ _ subs =>
    let r := labelF subs k
    (.node r.2 r.1, r.2 + 1)

/-- Label a forest of sibling scopes starting at index `k`. -/
def labelF (ps : List Prog) (k : Nat) : List TreeI × Nat :=
  match ps with
  | [] => ([], k)
  | p :: ps' =>
    let r := labelT p k
    let r' := labelF ps' r.2
    (r.1 :: r'.1, r'.2)
end

/-- Depth-first preorder of record indices of the call forest implied by a
well-nested session: the call tree labelled with completion positions,
traversed root-before-descendants with siblings in arrival order. -/
def preorderIndices (ps : List Prog) : List Nat :=
  preF (labelF ps 0).1

/-- Zipping the two projections of a list of pairs gives back the list. -/
theorem zip_fst_snd {a b : Type} (l : List (a × b)) :
    List.zip (l.map Prod.fst) (l.map Prod.snd) = l := by
  rw [List.zip_map']
  simp

/-- In a list of pairs with pairwise distinct first components, the first
component determines the pair. -/
theorem fst_nodup_inj {a b : Type} {l : List (a × b)} (h : (l.map Prod.fst).Nodup)
    {p q : a × b} (hp : p ∈ l) (hq : q ∈ l) (hpq : p.1 = q.1) : p = q := by
  induction l with
  | nil => cases hp
  | cons x xs ih =>
    simp only [List.map_cons, List.nodup_cons] at h
    rcases List.mem_cons.mp hp with hp1 | hp1 <;> rcases List.mem_cons.mp hq with hq1 | hq1
    · exact hp1.trans hq1.symm
    · have hx : q.1 ∈ List.map Prod.fst xs := List.mem_map_of_mem Prod.fst hq1
      rw [← hpq, hp1] at hx
      exact absurd hx h.1
    · have hx : p.1 ∈ List.map Prod.fst xs := List.mem_map_of_mem Prod.fst hp1
      rw [hpq, hq1] at hx
      exact absurd hx h.1
    · exact ih h.2 hp1 hq1

/-- Membership in `current_state_indices`, forward direction. -/
theorem mem_currentStateIndices {pairs : List (Nat × Int)} {c : Int} {p : Nat × Int}
    (hp : p ∈ pairs) (hc : p.2 = c) : p.1 ∈ currentStateIndices pairs c := by
  unfold currentStateIndices
  exact List.mem_filterMap.mpr ⟨p, hp, by rw [if_pos hc]⟩

/-- Every member of `current_state_indices` is the id of some pair whose
state equals `current_state`. -/
theorem of_mem_currentStateIndices {pairs : List (Nat × Int)} {c : Int} {x : Nat}
    (hx : x ∈ currentStateIndices pairs c) : ∃ p ∈ pairs, p.1 = x ∧ p.2 = c := by
  unfold currentStateIndices at hx
  rcases List.mem_filterMap.mp hx with ⟨p, hp, he⟩
  by_cases h : p.2 = c
  · rw [if_pos h] at he
    exact ⟨p, hp, Option.some.inj he, h⟩
  · rw [if_neg h] at he
    cases he

/-- When the ids in `pairs` are pairwise distinct, a pair's id is in
`current_state_indices` exactly when its own state is `current_state`. -/
theorem currentStateIndices_iff {pairs : List (Nat × Int)} (h : (pairs.map Prod.fst).Nodup)
    {c : Int} {p : Nat × Int} (hp : p ∈ pairs) :
    p.1 ∈ currentStateIndices pairs c ↔ p.2 = c := by
  constructor
  · intro hx
    rcases of_mem_currentStateIndices hx with ⟨q, hq, hq1, hq2⟩
    have he : q = p := fst_nodup_inj h hq hp hq1
    rw [← he]
    exact hq2
  · exact mem_currentStateIndices hp

/-- Mutual induction for labelled call trees, from the nested-inductive
recursor. -/
theorem tree_ind {mT : TreeI → Prop} {mF : List TreeI → Prop}
    (hnode : ∀ i cs, mF cs → mT (.node i cs)) (hnil : mF [])
    (hcons : ∀ t ts, mT t → mF ts → mF (t :: ts)) : (∀ t, mT t) ∧ (∀ ts, mF ts) := by
  have hT : ∀ t, mT t := fun t => @TreeI.rec mT mF hnode hnil hcons t
  refine ⟨hT, ?_⟩
  intro ts
  induction ts with
  | nil => exact hnil
  | cons t ts ih => exact hcons t ts (hT t) ih

/-- Mutual induction for scope trees, from the nested-inductive recursor. -/
theorem prog_ind {mT : Prog → Prop} {mF : List Prog → Prop}
    (hscope : ∀ n d subs, mF subs → mT (.scope n d subs)) (hnil : mF [])
    (hcons : ∀ p ps, mT p → mF ps → mF (p :: ps)) : (∀ p, mT p) ∧ (∀ ps, mF ps) := by
  have hT : ∀ p, mT p := fun p => @Prog.rec mT mF hscope hnil hcons p
  refine ⟨hT, ?_⟩
  intro ps
  induction ps with
  | nil => exact hnil
  | cons p ps ih => exact hcons p ps (hT p) ih

/-- Every record of a (sub)tree rooted at depth `L` has depth at least `L`. -/
theorem post_depth_ge :
    (∀ t : TreeI, ∀ L : Int, ∀ p ∈ postT L t, L ≤ p.2) ∧
    (∀ ts : List TreeI, ∀ L : Int, ∀ p ∈ postF L ts, L ≤ p.2) := by
  refine tree_ind ?_ ?_ ?_
  · intro i cs ih L p hp
    rw [postT] at hp
    rcases List.mem_append.mp hp with h | h
    · have := ih (L + 1) p h
      omega
    · rcases List.mem_singleton.mp h with rfl
      exact le_refl L
  · intro L p hp
    rw [postF] at hp
    cases hp
  · intro t ts iht ihts L p hp
    rw [postF] at hp
    rcases List.mem_append.mp hp with h | h
    · exact iht L p h
    · exact ihts L p h

/-- A non-empty forest produces a non-empty record list. -/
theorem postF_ne_nil (L : Int) (t : TreeI) (ts : List TreeI) : postF L (t :: ts) ≠ [] := by
  rw [postF]
  cases t with
  | node i cs =>
    rw [postT]
    simp

/-- Processing a block of non-markers only moves it into the subcall buffer. -/
theorem sortLoop_nonmarkers (P : List (Nat × Int)) :
    ∀ (rest : List (Nat × Int)) (c : Int) (csi : List Nat) (nested : List Nested)
      (sub : List (Nat × Int)) (sorted : List Nat), (∀ p ∈ P, p.1 ∉ csi) →
      sortLoop (P ++ rest) c csi nested sub sorted =
        sortLoop rest c csi nested (sub ++ P) sorted := by
  induction P with
  | nil => intro rest c csi nested sub sorted _; simp
  | cons p P ih =>
    intro rest c csi nested sub sorted h
    rcases p with ⟨i, s⟩
    rw [List.cons_append, sortLoop]
    rw [if_neg (h (i, s) (List.mem_cons_self _ _))]
    rw [ih rest c csi nested (sub ++ [(i, s)]) sorted
      (fun q hq => h q (List.mem_cons_of_mem _ hq))]
    simp

/-- Unfolding of the loop at the end of the pair sequence: the accumulated
`(nested_states, sorted_ids)` are returned, pending subcalls dropped. -/
theorem sortLoop_nil (c : Int) (csi : List Nat) (n : List Nested)
    (sub : List (Nat × Int)) (s : List Nat) : sortLoop [] c csi n sub s = (n, s) := by
  rw [sortLoop]

/-- Main loop invariant: processing the completion-order records of a
(sub)tree sitting at level `L` appends exactly its preorder id listing to
`sorted_ids`, provided membership in `current_state_indices` coincides with
having depth `L` and the record ids are pairwise distinct. -/
theorem sortLoop_post :
    (∀ t : TreeI, ∀ (L : Int) (csi : List Nat) (rest : List (Nat × Int))
      (nested : List Nested) (sorted : List Nat),
      (∀ p ∈ postT L t, (p.1 ∈ csi ↔ p.2 = L)) → ((postT L t).map Prod.fst).Nodup →
      ∃ nested2, sortLoop (postT L t ++ rest) L csi nested [] sorted
        = sortLoop rest L csi nested2 [] (sorted ++ preT t)) ∧
    (∀ ts : List TreeI, ∀ (L : Int) (csi : List Nat) (rest : List (Nat × Int))
      (nested : List Nested) (sorted : List Nat),
      (∀ p ∈ postF L ts, (p.1 ∈ csi ↔ p.2 = L)) → ((postF L ts).map Prod.fst).Nodup →
      ∃ nested2, sortLoop (postF L ts ++ rest) L csi nested [] sorted
        = sortLoop rest L csi nested2 [] (sorted ++ preF ts)) := by
  refine tree_ind ?_ ?_ ?_
  · -- one tree: its children's records are buffered, the root is the marker,
    -- the buffer is flushed through the recursive call
    intro i cs ih L csi rest nested sorted Hmem Hnodup
    have hroot : ((i, L) : Nat × Int) ∈ postT L (.node i cs) := by
      rw [postT]
      exact List.mem_append_right _ (List.mem_singleton.mpr rfl)
    have hmark : i ∈ csi := (Hmem (i, L) hroot).mpr rfl
    have hnotin : ∀ p ∈ postF (L + 1) cs, p.1 ∉ csi := by
      intro p hp hin
      have h1 : p.2 = L := (Hmem p (by rw [postT]; exact List.mem_append_left _ hp)).mp hin
      have h2 : L + 1 ≤ p.2 := post_depth_ge.2 cs (L + 1) p hp
      omega
    have hmapfst : (postT L (.node i cs)).map Prod.fst
        = (postF (L + 1) cs).map Prod.fst ++ [i] := by
      rw [postT]
      simp
    have Hnodup' : ((postF (L + 1) cs).map Prod.fst).Nodup := by
      rw [hmapfst] at Hnodup
      exact (List.nodup_append.mp Hnodup).1
    have step1 := sortLoop_nonmarkers (postF (L + 1) cs) ((i, L) :: rest) L csi
      nested [] sorted hnotin
    rw [List.nil_append] at step1
    rw [postT, List.append_assoc, List.singleton_append, step1]
    cases cs with
    | nil =>
      rw [sortLoop, if_pos hmark]
      rw [postF]
      refine ⟨nested ++ [Nested.nlist [Nested.nint L]], ?_⟩
      rw [preT, preF]
      simp [List.append_assoc]
    | cons c0 cs' =>
      have hne : postF (L + 1) (c0 :: cs') ≠ [] := postF_ne_nil (L + 1) c0 cs'
      have hguard : 0 < ((postF (L + 1) (c0 :: cs')).map Prod.fst).length := by
        rw [List.length_map]
        exact List.length_pos.mpr hne
      have Hmem' : ∀ p ∈ postF (L + 1) (c0 :: cs'),
          (p.1 ∈ currentStateIndices (postF (L + 1) (c0 :: cs')) (L + 1) ↔ p.2 = L + 1) :=
        fun p hp => currentStateIndices_iff Hnodup' hp
      obtain ⟨nested2, hih⟩ := ih (L + 1)
        (currentStateIndices (postF (L + 1) (c0 :: cs')) (L + 1)) [] [] [] Hmem' Hnodup'
      rw [List.append_nil, sortLoop_nil, List.nil_append] at hih
      refine ⟨(nested ++ [Nested.nlist [Nested.nint L]]) ++ [Nested.nlist nested2], ?_⟩
      rw [sortLoop, if_pos hmark, if_pos hguard]
      simp only [zip_fst_snd, hih]
      rw [preT]
      simp [List.append_assoc]
  · -- empty forest
    intro L csi rest nested sorted _ _
    rw [postF, List.nil_append]
    exact ⟨nested, by rw [preF, List.append_nil]⟩
  · -- non-empty forest: process the first tree, then its siblings
    intro t ts iht ihts L csi rest nested sorted Hmem Hnodup
    have HmemL : ∀ p ∈ postT L t, (p.1 ∈ csi ↔ p.2 = L) := by
      intro p hp
      exact Hmem p (by rw [postF]; exact List.mem_append_left _ hp)
    have HmemR : ∀ p ∈ postF L ts, (p.1 ∈ csi ↔ p.2 = L) := by
      intro p hp
      exact Hmem p (by rw [postF]; exact List.mem_append_right _ hp)
    have hmapfst : (postF L (t :: ts)).map Prod.fst
        = (postT L t).map Prod.fst ++ (postF L ts).map Prod.fst := by
      rw [postF]
      simp
    rw [hmapfst, List.nodup_append] at Hnodup
    obtain ⟨n1, h1⟩ := iht L csi (postF L ts ++ rest) nested sorted HmemL Hnodup.1
    obtain ⟨n2, h2⟩ := ihts L csi rest n1 (sorted ++ preT t) HmemR Hnodup.2.1
    refine ⟨n2, ?_⟩
    rw [postF, List.append_assoc, h1, h2, preF]
    rw [List.append_assoc]

/-- Top-level invocation on the completion-order records of a forest with
pairwise distinct ids returns exactly the forest's preorder id listing. -/
theorem sortByCallOrder_post (G : List TreeI) (L : Int)
    (h : ((postF L G).map Prod.fst).Nodup) :
    (sortByCallOrder ((postF L G).map Prod.snd) ((postF L G).map Prod.fst) L).2 = preF G := by
  rw [sortByCallOrder, zip_fst_snd]
  obtain ⟨n2, h2⟩ := sortLoop_post.2 G L (currentStateIndices (postF L G) L) [] [] []
    (fun p hp => currentStateIndices_iff h hp) h
  rw [List.append_nil, sortLoop_nil, List.nil_append] at h2
  rw [h2]

/-- Next free index after labelling: labelling adds the number of scopes. -/
theorem label_next :
    (∀ p : Prog, ∀ k : Nat, (labelT p k).2 = k + countT p) ∧
    (∀ ps : List Prog, ∀ k : Nat, (labelF ps k).2 = k + countF ps) := by
  refine prog_ind ?_ ?_ ?_
  · intro n d subs ih k
    rw [labelT, countT, ih k]
    omega
  · intro k
    rw [labelF, countF]
    simp
  · intro p ps ihT ihF k
    rw [labelF, countF, ihF, ihT]
    omega

/-- The ids of the completion-order records of a postorder-labelled forest
are exactly the consecutive indices starting at the first label. -/
theorem post_label_fst :
    (∀ p : Prog, ∀ (k : Nat) (L : Int),
      (postT L (labelT p k).1).map Prod.fst = List.range' k (countT p)) ∧
    (∀ ps : List Prog, ∀ (k : Nat) (L : Int),
      (postF L (labelF ps k).1).map Prod.fst = List.range' k (countF ps)) := by
  refine prog_ind ?_ ?_ ?_
  · intro n d subs ih k L
    rw [labelT, postT, countT]
    simp only [List.map_append, ih k, label_next.2 subs k]
    simp [List.range'_1_concat]
  · intro k L
    rw [labelF, postF, countF]
    simp
  · intro p ps ihT ihF k L
    rw [labelF, postF, countF]
    simp only [List.map_append, ihT, ihF, label_next.1 p k]
    rw [List.range'_append_1, Nat.add_comm]

/-- The depths of the completion-order records of a labelled forest are the
depth log of the underlying session. -/
theorem post_label_snd :
    (∀ p : Prog, ∀ (k : Nat) (L : Int),
      (postT L (labelT p k).1).map Prod.snd = depthsT L p) ∧
    (∀ ps : List Prog, ∀ (k : Nat) (L : Int),
      (postF L (labelF ps k).1).map Prod.snd = depthsF L ps) := by
  refine prog_ind ?_ ?_ ?_
  · intro n d subs ih k L
    rw [labelT, postT, depthsT]
    simp [ih k]
  · intro k L
    rw [labelF, postF, depthsF]
    simp
  · intro p ps ihT ihF k L
    rw [labelF, postF, depthsF]
    simp [ihT, ihF]

/-- Lengths of the per-session logs: one entry per completed scope. -/
theorem logs_length :
    (∀ p : Prog, ∀ L : Int,
      (depthsT L p).length = countT p ∧ (dursT p).length = countT p ∧
        (namesT p).length = countT p) ∧
    (∀ ps : List Prog, ∀ L : Int,
      (depthsF L ps).length = countF ps ∧ (dursF ps).length = countF ps ∧
        (namesF ps).length = countF ps) := by
  refine prog_ind ?_ ?_ ?_
  · intro n d subs ih L
    rw [depthsT, dursT, namesT, countT]
    have h := ih (L + 1)
    simp [h.1, h.2.1, h.2.2]
  · intro L
    rw [depthsF, dursF, namesF, countF]
    simp
  · intro p ps ihT ihF L
    rw [depthsF, dursF, namesF, countF]
    have h1 := ihT L
    have h2 := ihF L
    simp [h1.1, h1.2.1, h1.2.2, h2.1, h2.2.1, h2.2.2]

/-- Every depth recorded by a session whose scopes open at depth `L` is at
least `L`. -/
theorem depths_ge :
    (∀ p : Prog, ∀ L : Int, ∀ s ∈ depthsT L p, L ≤ s) ∧
    (∀ ps : List Prog, ∀ L : Int, ∀ s ∈ depthsF L ps, L ≤ s) := by
  refine prog_ind ?_ ?_ ?_
  · intro n d subs ih L s hs
    rw [depthsT] at hs
    rcases List.mem_append.mp hs with h | h
    · have := ih (L + 1) s h
      omega
    · have h2 := List.mem_singleton.mp h
      omega
  · intro L s hs
    rw [depthsF] at hs
    cases hs
  · intro p ps ihT ihF L s hs
    rw [depthsF] at hs
    rcases List.mem_append.mp hs with h | h
    · exact ihT L s h
    · exact ihF L s h

/-- The scope's own record is the last of its depth block and carries the
depth at which it was opened. -/
theorem depthsT_getLast (p : Prog) (L : Int) : (depthsT L p).getLast? = some L := by
  cases p with
  | scope n d subs =>
    rw [depthsT]
    exact List.getLast?_concat _

/-- Effect of running a session: each of the three logs is extended by the
session's log block, and the depth counter returns to its prior value. -/
theorem run_spec :
    (∀ p : Prog, ∀ t : Timer3, runProg t p =
      { times := t.times ++ dursT p, names := t.names ++ namesT p,
        states := t.states ++ depthsT (t.current_state + 1) p,
        current_state := t.current_state }) ∧
    (∀ ps : List Prog, ∀ t : Timer3, runForest t ps =
      { times := t.times ++ dursF ps, names := t.names ++ namesF ps,
        states := t.states ++ depthsF (t.current_state + 1) ps,
        current_state := t.current_state }) := by
  refine prog_ind ?_ ?_ ?_
  · intro n d subs ih t
    rw [runProg]
    simp only [ih]
    rw [depthsT, dursT, namesT]
    simp [List.append_assoc]
  · intro t
    rw [runForest, depthsF, dursF, namesF]
    simp
  · intro p ps ihT ihF t
    rw [runForest]
    simp only [ihT, ihF]
    rw [depthsF, dursF, namesF]
    simp [List.append_assoc]

/-- The record log of a session started on a fresh recorder is the depth log
of the session's call forest at top level 0. -/
theorem runForest_init_states (ps : List Prog) :
    (runForest Timer3.init ps).states = depthsF 0 ps := by
  rw [run_spec.2 ps Timer3.init]
  show Timer3.init.states ++ depthsF (Timer3.init.current_state + 1) ps = depthsF 0 ps
  rw [Timer3.init]
  norm_num

/-- Reconstruction of a recorded session is its preorder: running any
well-nested session on a fresh recorder and sorting the resulting log gives
exactly the depth-first preorder of the call forest, with record indices
assigned in completion order. -/
theorem sortRun_eq_preorder (ps : List Prog) :
    (runForest Timer3.init ps).sort_by_call_order = preorderIndices ps := by
  have hfst : (postF 0 (labelF ps 0).1).map Prod.fst = List.range (countF ps) := by
    rw [post_label_fst.2]
    exact (List.range_eq_range' _).symm
  have hsnd : (postF 0 (labelF ps 0).1).map Prod.snd = depthsF 0 ps :=
    post_label_snd.2 ps 0 0
  have hlen : (depthsF 0 ps).length = countF ps := (logs_length.2 ps 0).1
  rw [Timer3.sort_by_call_order, runForest_init_states, hlen, ← hfst, ← hsnd,
    preorderIndices]
  exact sortByCallOrder_post (labelF ps 0).1 0 (by rw [hfst]; exact List.nodup_range _)

/-- Preorder and completion order enumerate the same ids. -/
theorem pre_perm_post :
    (∀ t : TreeI, ∀ L : Int, (preT t).Perm ((postT L t).map Prod.fst)) ∧
    (∀ ts : List TreeI, ∀ L : Int, (preF ts).Perm ((postF L ts).map Prod.fst)) := by
  refine tree_ind ?_ ?_ ?_
  · intro i cs ih L
    rw [preT, postT]
    simp only [List.map_append, List.map_cons, List.map_nil]
    refine ((ih (L + 1)).cons i).trans ?_
    rw [← List.singleton_append]
    exact List.perm_append_comm
  · intro L
    rw [preF, postF]
    simp
  · intro t ts iht ihts L
    rw [preF, postF]
    simp only [List.map_append]
    exact (iht L).append (ihts L)

/-- The reconstructed ordering of a recorded session is a permutation of all
record indices. -/
theorem sortRun_perm (ps : List Prog) :
    ((runForest Timer3.init ps).sort_by_call_order).Perm
      (List.range (runForest Timer3.init ps).states.length) := by
  rw [sortRun_eq_preorder, preorderIndices, runForest_init_states,
    (logs_length.2 ps 0).1, List.range_eq_range']
  have h1 := pre_perm_post.2 (labelF ps 0).1 0
  rw [post_label_fst.2] at h1
  exact h1

/-- Every id in the loop's output comes from the accumulated `sorted_ids`,
the pending subcall buffer, or the remaining pairs. -/
theorem sortLoop_output_mem (l : List (Nat × Int)) (c : Int) (csi : List Nat)
    (nested : List Nested) (sub : List (Nat × Int)) (sorted : List Nat) :
    ∀ i ∈ (sortLoop l c csi nested sub sorted).2,
      i ∈ sorted ∨ i ∈ sub.map Prod.fst ∨ i ∈ l.map Prod.fst := by
  induction l, c, csi, nested, sub, sorted using sortLoop.induct with
  | case1 c csi nested sub sorted =>
    intro i hi
    rw [sortLoop_nil] at hi
    exact Or.inl hi
  | case2 id_state state rest c csi nested sub sorted hmem hlen subPairs r ih1 ih2 ihR =>
    intro i hi
    rw [sortLoop, if_pos hmem, if_pos hlen] at hi
    rcases ihR i hi with h | h | h
    · rcases List.mem_append.mp h with h2 | h2
      · rcases List.mem_append.mp h2 with h3 | h3
        · exact Or.inl h3
        · rcases List.mem_singleton.mp h3 with rfl
          refine Or.inr (Or.inr ?_)
          simp
      · rcases ih2 i h2 with h3 | h3 | h3
        · cases h3
        · simp at h3
        · refine Or.inr (Or.inl ?_)
          rw [zip_fst_snd] at h3
          exact h3
    · simp at h
    · refine Or.inr (Or.inr ?_)
      simp only [List.map_cons]
      exact List.mem_cons_of_mem _ h
  | case3 id_state state rest c csi nested sub sorted hmem hlen ih =>
    intro i hi
    rw [sortLoop, if_pos hmem, if_neg hlen] at hi
    rcases ih i hi with h | h | h
    · rcases List.mem_append.mp h with h2 | h2
      · exact Or.inl h2
      · refine Or.inr (Or.inr ?_)
        rcases List.mem_singleton.mp h2 with rfl
        simp
    · exact Or.inr (Or.inl h)
    · refine Or.inr (Or.inr ?_)
      simp only [List.map_cons]
      exact List.mem_cons_of_mem _ h
  | case4 id_state state rest c csi nested sub sorted hmem ih =>
    intro i hi
    rw [sortLoop, if_neg hmem] at hi
    rcases ih i hi with h | h | h
    · exact Or.inl h
    · rw [List.map_append] at h
      rcases List.mem_append.mp h with h2 | h2
      · exact Or.inr (Or.inl h2)
      · refine Or.inr (Or.inr ?_)
        simp only [List.map_cons]
        rcases List.mem_singleton.mp h2 with rfl
        simp
    · refine Or.inr (Or.inr ?_)
      simp only [List.map_cons]
      exact List.mem_cons_of_mem _ h

/-- When a block of pairs at the tail of the sequence contains no marker,
none of its ids can reach the output: the block only ever sits in the
subcall buffer, which is dropped at the end of the loop. -/
theorem sortLoop_trailing (B : List (Nat × Int)) (c : Int) (csi : List Nat)
    (hB : ∀ p ∈ B, p.1 ∉ csi) :
    ∀ (A : List (Nat × Int)) (nested : List Nested) (sub : List (Nat × Int))
      (sorted : List Nat),
    ∀ i ∈ (sortLoop (A ++ B) c csi nested sub sorted).2,
      i ∈ sorted ∨ i ∈ sub.map Prod.fst ∨ i ∈ A.map Prod.fst := by
  intro A
  induction A with
  | nil =>
    intro nested sub sorted i hi
    rw [List.nil_append] at hi
    have h1 := sortLoop_nonmarkers B [] c csi nested sub sorted hB
    rw [List.append_nil] at h1
    rw [h1, sortLoop_nil] at hi
    exact Or.inl hi
  | cons a A ih =>
    intro nested sub sorted i hi
    rcases a with ⟨ai, as⟩
    rw [List.cons_append, sortLoop] at hi
    by_cases hmem : ai ∈ csi
    · rw [if_pos hmem] at hi
      by_cases hlen : 0 < (sub.map Prod.fst).length
      · rw [if_pos hlen] at hi
        have hinner := sortLoop_output_mem
          (List.zip (sub.map Prod.fst) (sub.map Prod.snd)) (c + 1)
          (currentStateIndices (List.zip (sub.map Prod.fst) (sub.map Prod.snd)) (c + 1))
          [] [] []
        rcases ih _ _ _ i hi with h | h | h
        · rcases List.mem_append.mp h with h2 | h2
          · rcases List.mem_append.mp h2 with h3 | h3
            · exact Or.inl h3
            · rcases List.mem_singleton.mp h3 with rfl
              refine Or.inr (Or.inr ?_)
              simp
          · rcases hinner i h2 with h3 | h3 | h3
            · cases h3
            · simp at h3
            · refine Or.inr (Or.inl ?_)
              rw [zip_fst_snd] at h3
              exact h3
        · simp at h
        · refine Or.inr (Or.inr ?_)
          simp only [List.map_cons]
          exact List.mem_cons_of_mem _ h
      · rw [if_neg hlen] at hi
        rcases ih _ _ _ i hi with h | h | h
        · rcases List.mem_append.mp h with h2 | h2
          · exact Or.inl h2
          · rcases List.mem_singleton.mp h2 with rfl
            refine Or.inr (Or.inr ?_)
            simp
        · exact Or.inr (Or.inl h)
        · refine Or.inr (Or.inr ?_)
          simp only [List.map_cons]
          exact List.mem_cons_of_mem _ h
    · rw [if_neg hmem] at hi
      rcases ih _ _ _ i hi with h | h | h
      · exact Or.inl h
      · rw [List.map_append] at h
        rcases List.mem_append.mp h with h2 | h2
        · exact Or.inr (Or.inl h2)
        · simp only [List.map_cons, List.map_nil] at h2
          rcases List.mem_singleton.mp h2 with rfl
          refine Or.inr (Or.inr ?_)
          simp
      · refine Or.inr (Or.inr ?_)
        simp only [List.map_cons]
        exact List.mem_cons_of_mem _ h

/-- Records deeper than the top level that arrive after the last top-level
record are silently dropped by the reconstruction: no index at or past the
well-formed prefix appears in the output, so the output cannot be a
permutation of all indices. -/
theorem sort_trailing_dropped (t : Timer3) (pre T : List Int)
    (hs : t.states = pre ++ T) (hT : T ≠ []) (hT0 : ∀ s ∈ T, s ≠ 0) :
    (∀ i ∈ t.sort_by_call_order, i < pre.length) ∧
    ¬ t.sort_by_call_order.Perm (List.range t.states.length) := by
  have hlen : t.states.length = pre.length + T.length := by rw [hs, List.length_append]
  have hzip : List.zip (List.range t.states.length) t.states
      = List.zip (List.range' 0 pre.length) pre
        ++ List.zip (List.range' pre.length T.length) T := by
    rw [hs, List.length_append, List.range_eq_range', Nat.add_comm pre.length T.length,
      ← List.range'_append_1, Nat.zero_add]
    refine List.zip_append ?_
    rw [List.length_range']
  have hcsi : ∀ x ∈ currentStateIndices
      (List.zip (List.range' 0 pre.length) pre
        ++ List.zip (List.range' pre.length T.length) T) 0, x < pre.length := by
    intro x hx
    rcases of_mem_currentStateIndices hx with ⟨p, hp, hp1, hp2⟩
    rcases List.mem_append.mp hp with h | h
    · have h1 := (List.of_mem_zip h).1
      rw [List.mem_range'_1] at h1
      omega
    · exact absurd hp2 (hT0 p.2 (List.of_mem_zip h).2)
  have hB : ∀ p ∈ List.zip (List.range' pre.length T.length) T,
      p.1 ∉ currentStateIndices
        (List.zip (List.range' 0 pre.length) pre
          ++ List.zip (List.range' pre.length T.length) T) 0 := by
    intro p hp hin
    have h1 := (List.of_mem_zip hp).1
    rw [List.mem_range'_1] at h1
    have h2 := hcsi p.1 hin
    omega
  have hmain : ∀ i ∈ t.sort_by_call_order, i < pre.length := by
    intro i hi
    rw [Timer3.sort_by_call_order, sortByCallOrder, hzip] at hi
    rcases sortLoop_trailing _ 0 _ hB _ _ _ _ i hi with h | h | h
    · cases h
    · simp at h
    · rw [List.map_fst_zip _ _ (by rw [List.length_range'])] at h
      rw [List.mem_range'_1] at h
      omega
  refine ⟨hmain, ?_⟩
  intro hperm
  have hmem : pre.length ∈ List.range t.states.length := by
    rw [List.mem_range, hlen]
    have := List.length_pos.mpr hT
    omega
  have := hmain pre.length (hperm.mem_iff.mpr hmem)
  omega

/-- Folding `max` only grows the accumulator and dominates every element. -/
theorem foldl_max_le (xs : List Int) :
    ∀ a : Int, a ≤ xs.foldl max a ∧ ∀ x ∈ xs, x ≤ xs.foldl max a := by
  induction xs with
  | nil =>
    intro a
    exact ⟨le_refl a, by intro x hx; cases hx⟩
  | cons y xs ih =>
    intro a
    rw [List.foldl_cons]
    refine ⟨le_trans (le_max_left a y) (ih (max a y)).1, ?_⟩
    intro x hx
    rcases List.mem_cons.mp hx with rfl | hx
    · exact le_trans (le_max_right a x) (ih (max a x)).1
    · exact (ih (max a y)).2 x hx

/-- Folding `max` returns the accumulator or one of the elements. -/
theorem foldl_max_mem (xs : List Int) : ∀ a : Int, xs.foldl max a ∈ a :: xs := by
  induction xs with
  | nil =>
    intro a
    simp
  | cons y xs ih =>
    intro a
    rw [List.foldl_cons]
    rcases List.mem_cons.mp (ih (max a y)) with h | h
    · rw [h]
      rcases max_choice a y with h2 | h2 <;> rw [h2]
      · exact List.mem_cons_self _ _
      · exact List.mem_cons_of_mem _ (List.mem_cons_self _ _)
    · exact List.mem_cons_of_mem _ (List.mem_cons_of_mem _ h)

/-- Python `max` specification: on a non-empty list it returns an element
that dominates all elements. -/
theorem listMax_spec (l : List Int) (m : Int) (h : listMax l = some m) :
    m ∈ l ∧ ∀ x ∈ l, x ≤ m := by
  cases l with
  | nil =>
    rw [listMax] at h
    cases h
  | cons x xs =>
    rw [listMax] at h
    have hm : xs.foldl max x = m := Option.some.inj h
    constructor
    · rw [← hm]
      exact foldl_max_mem xs x
    · intro y hy
      rcases List.mem_cons.mp hy with rfl | hy
      · rw [← hm]
        exact (foldl_max_le xs y).1
      · rw [← hm]
        exact (foldl_max_le xs x).2 y hy

/-- Python `max` fails exactly on the empty list. -/
theorem listMax_ne_nil (l : List Int) (h : l ≠ []) : ∃ m, listMax l = some m := by
  cases l with
  | nil => exact absurd rfl h
  | cons x xs => exact ⟨xs.foldl max x, by rw [listMax]⟩

/-- `getD` on an append, inside the left list. -/
theorem getD_append_lt {a : Type} (l1 l2 : List a) (d : a) :
    ∀ i, i < l1.length → (l1 ++ l2).getD i d = l1.getD i d := by
  induction l1 with
  | nil =>
    intro i h
    cases h
  | cons x xs ih =>
    intro i h
    cases i with
    | zero => rfl
    | succ n =>
      rw [List.cons_append, List.getD_cons_succ, List.getD_cons_succ]
      exact ih n (by simpa using h)

/-- `getD` on a replicated list, in range. -/
theorem getD_replicate {a : Type} (d c : a) :
    ∀ (M i : Nat), i < M → (List.replicate M c).getD i d = c := by
  intro M
  induction M with
  | zero =>
    intro i h
    cases h
  | succ n ih =>
    intro i h
    rw [List.replicate_succ]
    cases i with
    | zero => rfl
    | succ j =>
      rw [List.getD_cons_succ]
      exact ih j (by omega)

/-- `getD` after `set` at the written index. -/
theorem getD_set_self {a : Type} (d c : a) :
    ∀ (l : List a) (i : Nat), i < l.length → (l.set i c).getD i d = c := by
  intro l
  induction l with
  | nil =>
    intro i h
    cases h
  | cons x xs ih =>
    intro i h
    cases i with
    | zero => rfl
    | succ n =>
      rw [List.set_cons_succ, List.getD_cons_succ]
      exact ih n (by simpa using h)

/-- `getD` after `set` at another index. -/
theorem getD_set_ne {a : Type} (d c : a) :
    ∀ (l : List a) (i j : Nat), i ≠ j → (l.set i c).getD j d = l.getD j d := by
  intro l
  induction l with
  | nil =>
    intro i j _
    rfl
  | cons x xs ih =>
    intro i j hij
    cases i with
    | zero =>
      cases j with
      | zero => exact absurd rfl hij
      | succ n => rfl
    | succ n =>
      cases j with
      | zero => rfl
      | succ k =>
        rw [List.set_cons_succ, List.getD_cons_succ, List.getD_cons_succ]
        exact ih n k (by omega)

/-- `getD` returns an element of the list or the default. -/
theorem getD_mem_or_default {a : Type} (d : a) :
    ∀ (l : List a) (i : Nat), l.getD i d ∈ l ∨ l.getD i d = d := by
  intro l
  induction l with
  | nil =>
    intro i
    exact Or.inr rfl
  | cons x xs ih =>
    intro i
    cases i with
    | zero => exact Or.inl (List.mem_cons_self _ _)
    | succ n =>
      rw [List.getD_cons_succ]
      rcases ih n with h | h
      · exact Or.inl (List.mem_cons_of_mem _ h)
      · exact Or.inr h

/-- Shape of the exported header row: `max_state + 1` columns, the fixed
"function names" label first and the fixed "time (s)" label last. -/
theorem csvHeader_spec (M : Nat) (hM : 0 < M) :
    (csvHeader M).length = M + 1 ∧
    (csvHeader M).getD 0 Cell.blank = Cell.str "function names" ∧
    (csvHeader M).getLast? = some (Cell.str "time (s)") := by
  have hset : csvHeader M
      = (List.replicate M Cell.blank).set 0 (Cell.str "function names")
        ++ [Cell.str "time (s)"] := by
    rw [csvHeader]
    exact List.set_append_left _ _ (by simpa using hM)
  refine ⟨?_, ?_, ?_⟩
  · rw [hset]
    simp
  · rw [hset, getD_append_lt _ _ _ 0 (by simpa using hM)]
    exact getD_set_self _ _ _ 0 (by simpa using hM)
  · rw [hset]
    exact List.getLast?_concat _

/-- Shape of an exported data row: `max_state + 1` columns, the record's
name in the column given by its depth, every other leading column blank,
and the duration in the last column. -/
theorem csvRow_spec (t : Timer3) (M : Nat) (i : Nat)
    (hs : (t.states.getD i 0).toNat < M) :
    (csvRow t M i).length = M + 1 ∧
    (csvRow t M i).getD (t.states.getD i 0).toNat Cell.blank
        = Cell.str (t.names.getD i "") ∧
    (∀ j, j < M → j ≠ (t.states.getD i 0).toNat →
      (csvRow t M i).getD j Cell.blank = Cell.blank) ∧
    (csvRow t M i).getLast? = some (Cell.num (t.times.getD i 0)) := by
  have hset : csvRow t M i
      = (List.replicate M Cell.blank).set (t.states.getD i 0).toNat
          (Cell.str (t.names.getD i ""))
        ++ [Cell.num (t.times.getD i 0)] := by
    rw [csvRow]
    exact List.set_append_left _ _ (by simpa using hs)
  refine ⟨?_, ?_, ?_, ?_⟩
  · rw [hset]
    simp
  · rw [hset, getD_append_lt _ _ _ _ (by simpa using hs)]
    exact getD_set_self _ _ _ _ (by simpa using hs)
  · intro j hj hne
    rw [hset, getD_append_lt _ _ _ j (by simpa using hj)]
    rw [getD_set_ne _ _ _ _ _ hne.symm]
    exact getD_replicate _ _ _ _ hj
  · rw [hset]
    exact List.getLast?_concat _

/-- A call of the `sort_by_call_order` method, as a state transformer on the
receiver: the method reads `self.states` and assigns only local variables,
so the receiver comes back unchanged next to the computed ordering. -/
def sortCall (t : Timer3) : List Nat × Timer3 :=
  (t.sort_by_call_order, t)

/-- A populated recorder used as a concrete export scenario: three records
with maximal depth 2 (the deepest scope completes first). -/
def csvSample : Timer3 :=
  { times := [10, 20, 30], names := ["c", "b", "a"], states := [2, 1, 0],
    current_state := -1 }

/-- Claim C1: for every record log produced by a well-nested sequence of
scope entries and exits (any session `ps` run on a fresh recorder),
`sort_by_call_order` returns exactly the depth-first preorder of the implied
call tree — each region immediately followed by all of its descendants
before any sibling, and siblings (records with the same immediate parent)
kept in their relative arrival order.  `preorderIndices ps` is by
construction the root-first, siblings-in-order traversal of the call forest
labelled with completion-order record indices. -/
theorem claim_C1 (ps : List Prog) :
    (runForest Timer3.init ps).sort_by_call_order = preorderIndices ps :=
  sortRun_eq_preorder ps

/-- Claim C2 counterexample: the claim asserts that on a failure inside the
timed region the release step still runs: the record would be appended and
`current_depth` restored before propagation.  On the concrete recorder
`Timer3.init` with a body that raises immediately, the exception does
propagate unchanged, but no record is appended and `current_state` stays
incremented, refuting the release half of the claim. -/
theorem claim_C2_counterexample :
    (Timer3.time Timer3.init "f" 5 (fun s => (s, some (7 : Nat)))).2 = some 7 ∧
    ¬ ((Timer3.time Timer3.init "f" 5 (fun s => (s, some (7 : Nat)))).1.states.length
          = Timer3.init.states.length + 1 ∧
        (Timer3.time Timer3.init "f" 5 (fun s => (s, some (7 : Nat)))).1.current_state
          = Timer3.init.current_state) := by
  constructor
  · rfl
  · intro h
    have h1 := h.1
    simp [Timer3.time, Timer3.init] at h1

/-- Claim C2 as amended: when the body of a timed region (the `time`
context manager, and hence also a `timethis`-wrapped call) raises, the
exception propagates unchanged to the caller, but the release step does not
run: the context manager appends nothing and performs no decrement, so the
final recorder state is exactly the state the body left behind (in
particular `current_depth` remains incremented). -/
theorem claim_C2_amended {e : Type} (t t1 : Timer3) (name : String) (dur : Int)
    (body : Timer3 → Timer3 × Option e) (err : e)
    (h : body { t with current_state := t.current_state + 1 } = (t1, some err)) :
    Timer3.time t name dur body = (t1, some err) := by
  rw [Timer3.time, h]

/-- Claim C2 amended, witness: a body that raises without touching the
state; the error propagates and the returned state still has the
incremented depth counter and no appended record. -/
theorem claim_C2_amended_witness :
    Timer3.time Timer3.init "f" 1 (fun s => (s, some (3 : Nat)))
      = ({ times := [], names := [], states := [], current_state := 0 }, some 3) :=
  claim_C2_amended Timer3.init
    { times := [], names := [], states := [], current_state := 0 } "f" 1
    (fun s => (s, some (3 : Nat))) 3 rfl

/-- Claim C3: for every record log produced by a well-nested sequence of
scope entries and exits, the reconstructed ordering is a permutation of
`0..n-1`: it contains every record index exactly once. -/
theorem claim_C3 (ps : List Prog) :
    ((runForest Timer3.init ps).sort_by_call_order).Perm
      (List.range (runForest Timer3.init ps).states.length) :=
  sortRun_perm ps

/-- Claim C4: on the depth sequence `[1, 0, 1, 0]` (two siblings, each with
one child, records logged in completion order) `sort_by_call_order` returns
`[1, 0, 3, 2]`. -/
theorem claim_C4 :
    ({ times := [10, 20, 30, 40], names := ["a1", "a", "b1", "b"],
        states := [1, 0, 1, 0], current_state := -1 } : Timer3).sort_by_call_order
      = [1, 0, 3, 2] := by
  have h2 : (postF 0 [TreeI.node 1 [TreeI.node 0 []], TreeI.node 3 [TreeI.node 2 []]]).map
      Prod.fst = [0, 1, 2, 3] := by
    simp [postF, postT]
  have h1 : (postF 0 [TreeI.node 1 [TreeI.node 0 []], TreeI.node 3 [TreeI.node 2 []]]).map
      Prod.snd = [1, 0, 1, 0] := by
    simp [postF, postT]
  have hmain := sortByCallOrder_post
    [TreeI.node 1 [TreeI.node 0 []], TreeI.node 3 [TreeI.node 2 []]] 0
    (by rw [h2]; decide)
  rw [h1, h2] at hmain
  have h4 : preF [TreeI.node 1 [TreeI.node 0 []], TreeI.node 3 [TreeI.node 2 []]]
      = [1, 0, 3, 2] := by
    simp [preF, preT]
  rw [h4] at hmain
  rw [Timer3.sort_by_call_order]
  show (sortByCallOrder [1, 0, 1, 0] (List.range 4) 0).2 = [1, 0, 3, 2]
  have h3 : List.range 4 = [0, 1, 2, 3] := by decide
  rw [h3]
  exact hmain

/-- Claim C5: `sort_by_call_order` never mutates the recorder (it reads
`self.states` and writes only local variables, so its embedding returns the
receiver unchanged), and calling it twice on the same unmodified log yields
the identical ordering. -/
theorem claim_C5 (t : Timer3) :
    (sortCall t).2 = t ∧ (sortCall (sortCall t).2).1 = (sortCall t).1 :=
  ⟨rfl, rfl⟩

/-- Claim C6: after every normally completed scope the depth counter is back
at its pre-call value (so a fresh recorder ends any session at -1); the
record written for a scope itself (the last of its block) carries the depth
at which it was opened, hence 0 for a top-level scope; and every depth in
the log of a fresh-recorder session is non-negative. -/
theorem claim_C6 (ps : List Prog) (t : Timer3) (p : Prog) :
    (runForest t ps).current_state = t.current_state ∧
    (runProg t p).current_state = t.current_state ∧
    (runProg t p).states.getLast? = some (t.current_state + 1) ∧
    (runProg Timer3.init p).states.getLast? = some 0 ∧
    (runForest Timer3.init ps).current_state = -1 ∧
    ((runForest Timer3.init ps).states.all fun s => decide (0 ≤ s)) = true := by
  have hlast : ∀ (t2 : Timer3), (runProg t2 p).states.getLast? = some (t2.current_state + 1) := by
    intro t2
    cases p with
    | scope n d subs =>
      rw [run_spec.1]
      show (t2.states ++ depthsT (t2.current_state + 1) (.scope n d subs)).getLast?
        = some (t2.current_state + 1)
      rw [depthsT, ← List.append_assoc]
      exact List.getLast?_concat _
  refine ⟨by rw [run_spec.2], by rw [run_spec.1], hlast t, ?_, ?_, ?_⟩
  · rw [hlast Timer3.init]
    norm_num [Timer3.init]
  · rw [run_spec.2]
    rfl
  · rw [List.all_eq_true]
    intro s hs
    rw [decide_eq_true_eq]
    rw [runForest_init_states] at hs
    exact depths_ge.2 ps 0 s hs

/-- Claim C7: on a non-empty record log with non-negative depths, the CSV
export succeeds; every row (header and data) has exactly `max(depth) + 2`
columns; the header has "function names" in column 0 and "time (s)" last;
and each data row carries the record's name in the column equal to its
depth, blanks in the other leading columns, and the duration last. -/
theorem claim_C7 (t : Timer3) (h1 : t.states ≠ []) (h2 : ∀ s ∈ t.states, 0 ≤ s) :
    ∃ m : Int, listMax t.states = some m ∧ 0 ≤ m ∧
      Timer3.export_csv t
        = some (csvHeader (m + 1).toNat
            :: t.sort_by_call_order.map (csvRow t (m + 1).toNat)) ∧
      (∀ row ∈ csvHeader (m + 1).toNat
            :: t.sort_by_call_order.map (csvRow t (m + 1).toNat),
        row.length = m.toNat + 2) ∧
      (csvHeader (m + 1).toNat).getD 0 Cell.blank = Cell.str "function names" ∧
      (csvHeader (m + 1).toNat).getLast? = some (Cell.str "time (s)") ∧
      (∀ i ∈ t.sort_by_call_order,
        (csvRow t (m + 1).toNat i).getD (t.states.getD i 0).toNat Cell.blank
            = Cell.str (t.names.getD i "") ∧
        (∀ j, j < (m + 1).toNat → j ≠ (t.states.getD i 0).toNat →
          (csvRow t (m + 1).toNat i).getD j Cell.blank = Cell.blank) ∧
        (csvRow t (m + 1).toNat i).getLast? = some (Cell.num (t.times.getD i 0))) := by
  obtain ⟨m, hm⟩ := listMax_ne_nil t.states h1
  obtain ⟨hmem, hub⟩ := listMax_spec t.states m hm
  have hm0 : 0 ≤ m := h2 m hmem
  have hMpos : 0 < (m + 1).toNat := by omega
  have hrowlt : ∀ i : Nat, (t.states.getD i 0).toNat < (m + 1).toNat := by
    intro i
    rcases getD_mem_or_default 0 t.states i with h | h
    · have ha := hub _ h
      have hb := h2 _ h
      omega
    · rw [h]
      omega
  refine ⟨m, hm, hm0, ?_, ?_, (csvHeader_spec _ hMpos).2.1, (csvHeader_spec _ hMpos).2.2, ?_⟩
  · rw [Timer3.export_csv, hm]
  · intro row hrow
    rcases List.mem_cons.mp hrow with rfl | hrow
    · have := (csvHeader_spec _ hMpos).1
      omega
    · rcases List.mem_map.mp hrow with ⟨i, _, rfl⟩
      have := (csvRow_spec t _ i (hrowlt i)).1
      omega
  · intro i _
    exact ⟨(csvRow_spec t _ i (hrowlt i)).2.1, (csvRow_spec t _ i (hrowlt i)).2.2.1,
      (csvRow_spec t _ i (hrowlt i)).2.2.2⟩

/-- Claim C7 witness: the export scenario with maximal depth 2 (so four
columns per row) on the concrete recorder `csvSample`. -/
theorem claim_C7_witness :
    ∃ m : Int, listMax csvSample.states = some m ∧ 0 ≤ m ∧
      Timer3.export_csv csvSample
        = some (csvHeader (m + 1).toNat
            :: csvSample.sort_by_call_order.map (csvRow csvSample (m + 1).toNat)) ∧
      (∀ row ∈ csvHeader (m + 1).toNat
            :: csvSample.sort_by_call_order.map (csvRow csvSample (m + 1).toNat),
        row.length = m.toNat + 2) ∧
      (csvHeader (m + 1).toNat).getD 0 Cell.blank = Cell.str "function names" ∧
      (csvHeader (m + 1).toNat).getLast? = some (Cell.str "time (s)") ∧
      (∀ i ∈ csvSample.sort_by_call_order,
        (csvRow csvSample (m + 1).toNat i).getD
            (csvSample.states.getD i 0).toNat Cell.blank
            = Cell.str (csvSample.names.getD i "") ∧
        (∀ j, j < (m + 1).toNat → j ≠ (csvSample.states.getD i 0).toNat →
          (csvRow csvSample (m + 1).toNat i).getD j Cell.blank = Cell.blank) ∧
        (csvRow csvSample (m + 1).toNat i).getLast?
            = some (Cell.num (csvSample.times.getD i 0))) :=
  claim_C7 csvSample (by decide) (by decide)

/-- Claim C8: with zero records both the string rendering and the CSV
export fail (the python `max` over the empty collection raises; the model
returns `none`) instead of producing a result. -/
theorem claim_C8 (t : Timer3) (hn : t.names = []) (hs : t.states = []) :
    Timer3.strRender t = none ∧ Timer3.export_csv t = none := by
  constructor
  · rw [Timer3.strRender, hn, hs]
    rfl
  · rw [Timer3.export_csv, hs]
    rfl

/-- Claim C8 witness: the freshly initialised recorder. -/
theorem claim_C8_witness :
    Timer3.strRender Timer3.init = none ∧ Timer3.export_csv Timer3.init = none :=
  claim_C8 Timer3.init rfl rfl

/-- Claim C9: the three log lists stay in lockstep — starting from a fresh
recorder, after any sequence of completed scopes all three have length equal
to the number of completed scopes. -/
theorem claim_C9 (ps : List Prog) :
    (runForest Timer3.init ps).times.length = countF ps ∧
    (runForest Timer3.init ps).names.length = countF ps ∧
    (runForest Timer3.init ps).states.length = countF ps := by
  have h2 := logs_length.2 ps 0
  refine ⟨?_, ?_, ?_⟩
  · rw [run_spec.2]
    show (Timer3.init.times ++ dursF ps).length = countF ps
    simp [Timer3.init, h2.2.1]
  · rw [run_spec.2]
    show (Timer3.init.names ++ namesF ps).length = countF ps
    simp [Timer3.init, h2.2.2]
  · rw [runForest_init_states]
    exact h2.1

/-- Claim C10: on a malformed depth sequence whose tail contains records
deeper than the top level after the last top-level record (including the
degenerate case of no top-level record at all, e.g. `states = [1]`), the
trailing buffered records are silently dropped: no index of the tail block
reaches the output, so the result is not a permutation of the record
indices. -/
theorem claim_C10 (t : Timer3) (pre T : List Int) (hs : t.states = pre ++ T)
    (hT : T ≠ []) (hT0 : ∀ s ∈ T, s ≠ 0) :
    (∀ i ∈ t.sort_by_call_order, i < pre.length) ∧
    ¬ t.sort_by_call_order.Perm (List.range t.states.length) :=
  sort_trailing_dropped t pre T hs hT hT0

/-- A recorder holding the malformed single-record log `states = [1]`: a
depth-1 record with no enclosing depth-0 record at all. -/
def badSample : Timer3 :=
  { times := [], names := [], states := [1], current_state := -1 }

/-- Claim C10 witness: on the malformed log `states = [1]` every output
index is below 0 (so the output is empty) and the output is not a
permutation of `range 1`. -/
theorem claim_C10_witness :
    (∀ i ∈ badSample.sort_by_call_order, i < List.length ([] : List Int)) ∧
    ¬ badSample.sort_by_call_order.Perm (List.range badSample.states.length) :=
  claim_C10 badSample [] [1] rfl (by decide) (by decide)
